import Mathlib

/-!
Verification of the mcsm-bak incremental backup tool.

This file is a shallow embedding of the repository's Python sources
(`mcsm_bak.py`, `utils.py`) into Lean 4, together with theorems settling
the frozen claims about the specification.

Modelling conventions:

* The local filesystem is a pair of partial functions: `stat` returning
  (mtime, size) and `read` returning the file's bytes.  A `none` result
  models a raised `FileNotFoundError`/`PermissionError`.  `mtime` is
  modelled as `Int` (the code only ever compares mtimes for equality, so
  any type with decidable equality is a faithful model of the float),
  sizes as `Nat`, file contents as `List Nat` (byte lists).
* SHA-256 is kept abstract: every definition is parameterised by a digest
  function `sha256 : List Nat → String`.  The code only compares digests
  for equality, so no claim depends on the concrete hash.
* Python dicts are modelled as association lists with first-key-wins
  lookup and in-place overwrite on insert (Python dict assignment keeps
  the position of an existing key and appends new keys).
-/

namespace Mcsm

/-- `utils.get_file_mtime`/`get_file_size` results of one `os.stat` call
paired together, and `open(...).read()` contents, as partial functions.
`none` models a raised `FileNotFoundError`/`PermissionError`. -/
structure FS where
  stat : String → Option (Int × Nat)
  read : String → Option (List Nat)

/-- One value of the manifest cache: the `{'mtime': ..., 'size': ...,
'sha256': ...}` record written by `update_cache` in `mcsm_bak.py`. -/
structure CacheEntry where
  mtime : Int
  size : Nat
  sha256 : String
deriving DecidableEq, Repr

/-- The manifest cache: the Python dict mapping normalized relative path
to its recorded identity. -/
abbrev Cache := List (String × CacheEntry)

/-- Python dict lookup `d[k]` (first binding wins; a Python dict never
holds duplicate keys, so this is exact). -/
def alistFind {α : Type} : List (String × α) → String → Option α
  | [], _ => none
  | (k, v) :: rest, key => if k = key then some v else alistFind rest key

/-- Python dict assignment `d[k] = v`: replace the binding of a present
key in place (a dict holds each key once), append a new key at the end. -/
def alistInsert {α : Type} : List (String × α) → String → α → List (String × α)
  | [], key, v => [(key, v)]
  | (k, w) :: rest, key, v =>
    if k = key then (key, v) :: rest
    else (k, w) :: alistInsert rest key v

/-! ### `utils.normalize`

`normalize(p)` is `str(Path(p).relative_to(Path('.')))`.  For a relative
POSIX path the `Path` constructor splits on `/`, drops empty components
and `.` components (keeping `..`), and `relative_to('.')` is the identity
on the result; `str` joins the remaining components with `/`, rendering
the empty component list as `.`.  We model exactly that on character
lists. -/

/-- Split a character list on `/` (the component decomposition performed
by Python's `Path` constructor). -/
def splitSlash : List Char → List (List Char)
  | [] => [[]]
  | c :: rest =>
    match splitSlash rest with
    | [] => [[]]
    | g :: gs => if c = '/' then [] :: g :: gs else (c :: g) :: gs

/-- Join path components with `/` (Python's `str` of a relative `Path`). -/
def joinSlash : List (List Char) → List Char
  | [] => []
  | [g] => g
  | g :: gs => g ++ '/' :: joinSlash gs

/-- A component is kept by the `Path` constructor iff it is nonempty and
is not `.`. -/
def keepComp (g : List Char) : Bool :=
  decide (g ≠ [] ∧ g ≠ ['.'])

/-- `utils.normalize`: `str(Path(relative_path).relative_to(Path('.')))`. -/
def normalize (relative_path : String) : String :=
  let comps := (splitSlash relative_path.data).filter keepComp
  if comps = [] then "." else String.mk (joinSlash comps)

/-- `utils.get_file_sha256` (digest function abstract). -/
def get_file_sha256 (fs : FS) (sha256 : List Nat → String) (p : String) :
    Option String :=
  (fs.read p).map sha256

/-- `mcsm_bak.should_backup`: decides whether a file must be uploaded.
Mirrors the source line by line: absent key → `True`; a failing
metadata probe → `False`; matching (mtime, size) → `False`; otherwise a
digest comparison, with a failing content probe → `False`. -/
def should_backup (fs : FS) (sha256 : List Nat → String)
    (file_path : String) (cache : Cache) : Bool :=
  let np := normalize file_path
  match alistFind cache np with
  | none => true
  | some entry =>
    match fs.stat np with
    | none => false
    | some ms =>
      if entry.mtime = ms.1 ∧ entry.size = ms.2 then false
      else
        match fs.read np with
        | none => false
        | some content =>
          if entry.sha256 = sha256 content then false else true

/-- `should_backup` instrumented with a flag recording whether control
reached the `get_file_sha256` call (the expensive digest computation).
The first component is exactly `should_backup`. -/
def should_backup_probe (fs : FS) (sha256 : List Nat → String)
    (file_path : String) (cache : Cache) : Bool × Bool :=
  let np := normalize file_path
  match alistFind cache np with
  | none => (true, false)
  | some entry =>
    match fs.stat np with
    | none => (false, false)
    | some ms =>
      if entry.mtime = ms.1 ∧ entry.size = ms.2 then (false, false)
      else
        match fs.read np with
        | none => (false, true)
        | some content =>
          if entry.sha256 = sha256 content then (false, true) else (true, true)

/-- `mcsm_bak.update_cache`: re-probe the file and overwrite its cache
entry.  A failing probe models the `FileNotFoundError`/`PermissionError`
the Python code lets escape to the caller (`none`). -/
def update_cache (fs : FS) (sha256 : List Nat → String)
    (file_path : String) (cache : Cache) : Option Cache :=
  let np := normalize file_path
  match fs.stat np, fs.read np with
  | some ms, some content =>
      some (alistInsert cache np ⟨ms.1, ms.2, sha256 content⟩)
  | _, _ => none

/-! ### `utils.is_excluded` and the directory walker

The built-in exclusion is `re.match(r'.*^\.mcsm_bak\..+\.json$', path)`.
Without `re.MULTILINE`, `^` only matches at position 0, so the leading
`.*` necessarily matches the empty string and the pattern is equivalent
to `^\.mcsm_bak\..+\.json$`: the string is `.mcsm_bak.` ++ m ++ `.json`
(with m nonempty and newline-free, since `.` does not match a newline),
optionally followed by one trailing newline (matched by `$`).  The
user-configured patterns from `config.exclusions` are external
configuration; they are modelled as an abstract list of predicates. -/

/-- Characters of the literal `\.mcsm_bak\.` part of the built-in
exclusion regex. -/
def cacheNameHead : List Char := ".mcsm_bak.".data

/-- Characters of the literal `\.json` part of the built-in exclusion
regex. -/
def cacheNameTail : List Char := ".json".data

/-- Semantics of `re.match(r'.*^\.mcsm_bak\..+\.json$', file_path)`
(derivation in the section comment): after discarding one trailing
newline, the string starts with `.mcsm_bak.`, ends with `.json`, and
carries a nonempty newline-free middle between the two literals. -/
def isCacheFileName (file_path : String) : Bool :=
  let cs :=
    if file_path.data.getLast? = some '\x0a' then file_path.data.dropLast
    else file_path.data
  cacheNameHead.isPrefixOf cs && cacheNameTail.isSuffixOf cs
    && decide (cacheNameHead.length + cacheNameTail.length < cs.length)
    && ((cs.drop cacheNameHead.length).take
          (cs.length - cacheNameHead.length - cacheNameTail.length)).all
        (fun c => decide (c ≠ '\x0a'))

/-- `utils.is_excluded`: the built-in cache-file pattern first, then the
configured patterns, first match short-circuiting to `True`. -/
def is_excluded (exclusions : List (String → Bool)) (file_path : String) :
    Bool :=
  if isCacheFileName file_path then true
  else exclusions.any (fun pattern => pattern file_path)

/-- A directory tree as seen by `walk_files`.  An entry whose payload is
`none` raises `FileNotFoundError`/`PermissionError` when probed
(`is_file`/`is_dir`/`iterdir`), which the source catches and skips. -/
inductive FSTree : Type where
  | file : FSTree
  | dir : List (String × Option FSTree) → FSTree

/-- `sorted(current_path.iterdir())`: inside one directory all entry
paths share the parent as a common string-prefix, so sorting the `Path`
objects sorts the entry names. -/
def sortEntries (es : List (String × Option FSTree)) :
    List (String × Option FSTree) :=
  es.mergeSort (fun a b => decide (a.1 ≤ b.1))

/-- Path of a directory entry: `str(current_path / name)`, relative to
the instance root (the walk starts at `'.'`, and `Path('.') / name`
prints as just `name`). -/
def joinPath (pre name : String) : String :=
  if pre = "" then name else pre ++ "/" ++ name

/-- `mcsm_bak.walk_files` on the entries of one directory: skip an entry
whose access raises, skip an excluded entry, yield a file's relative
path, recurse into a subdirectory (its entries sorted). -/
def walk_files (exclusions : List (String → Bool)) :
    String → List (String × Option FSTree) → List String
  | _, [] => []
  | pre, (name, info) :: rest =>
    (match info with
     | none => []
     | some t =>
       if is_excluded exclusions (joinPath pre name) then []
       else
         match t with
         | .file => [joinPath pre name]
         | .dir es => walk_files exclusions (joinPath pre name) (sortEntries es)) ++
    walk_files exclusions pre rest
termination_by _ es => sizeOf es
decreasing_by
  · have hperm := (List.mergeSort_perm es (fun a b => decide (a.1 ≤ b.1))).sizeOf_eq_sizeOf
    simp only [sortEntries, hperm]
    simp
    try omega
  · simp
    try omega

/-- The walk of `mcsm_bak.producer`: `walk_files('.')` is the walk of the
root directory's sorted entries with an empty path accumulator. -/
def walk_files_root (exclusions : List (String → Bool))
    (root : List (String × Option FSTree)) : List String :=
  walk_files exclusions "" (sortEntries root)

/-- The files `mcsm_bak.producer` enqueues during an uninterrupted run:
the walked paths surviving the producer's (redundant) `is_excluded`
re-check and its `should_backup` check. -/
def producer_files (exclusions : List (String → Bool)) (fs : FS)
    (sha256 : List Nat → String) (cache : Cache)
    (root : List (String × Option FSTree)) : List String :=
  (walk_files_root exclusions root).filter
    (fun f => !(is_excluded exclusions f) && should_backup fs sha256 f cache)

/-! ### Net effect of one pipeline run

The producer enumerates candidates once; each selected path is uploaded
by some uploader thread and, on success, handed to the updater, which
calls `update_cache` (catching its probe errors).  An entry of the cache
dict is only ever written by the updater, under the path's normalized
key, so the net effect on the cache is a fold over the enumeration. -/

/-- Net effect of one selected file: the `backup_file` upload call and,
on success, the updater's `update_cache` (whose probe failure is caught
by the updater, leaving the cache untouched). -/
def processFile (fs : FS) (sha256 : List Nat → String)
    (upload : String → Bool) (p : String) (c : Cache) : Cache :=
  if upload p then (update_cache fs sha256 p c).getD c else c

/-- Sequential net effect of an uninterrupted pipeline run over the
enumerated candidate paths: first component the final cache, second the
paths selected for upload, in enumeration order.  Selection consults the
cache state at the path's turn, exactly as the producer does. -/
def runBackup (fs : FS) (sha256 : List Nat → String)
    (upload : String → Bool) : List String → Cache → Cache × List String
  | [], c => (c, [])
  | p :: rest, c =>
    if should_backup fs sha256 p c then
      let r := runBackup fs sha256 upload rest (processFile fs sha256 upload p c)
      (r.1, p :: r.2)
    else runBackup fs sha256 upload rest c

/-! ### Persisted manifest (`save_cache` / `load_cache`)

`save_cache` runs `json.dump(cache, f, indent=4)` into
`.mcsm_bak.<label>.json`; `load_cache` runs `json.load` on that file, or
returns `{}` when the file does not exist.  The JSON text layer is
modelled at the level of JSON values: numbers, strings and ordered
objects (Python's `json` round-trips ints, floats and strings exactly
and preserves object member order). -/

/-- JSON values as produced/consumed by `json.dump`/`json.load` for the
manifest (numbers, strings, objects suffice for its shape). -/
inductive Jval : Type where
  | jnum : Int → Jval
  | jstr : String → Jval
  | jobj : List (String × Jval) → Jval

/-- JSON form of one cache entry, in the field order `update_cache`
writes. -/
def encodeEntry (e : CacheEntry) : Jval :=
  .jobj [("mtime", .jnum e.mtime), ("size", .jnum (Int.ofNat e.size)),
         ("sha256", .jstr e.sha256)]

/-- Typed reading of one entry, as the consumers
(`should_backup`/`update_cache`) access it. -/
def decodeEntry : Jval → Option CacheEntry
  | .jobj [("mtime", .jnum m), ("size", .jnum s), ("sha256", .jstr d)] =>
    if 0 ≤ s then some ⟨m, s.toNat, d⟩ else none
  | _ => none

/-- JSON form of a whole manifest cache. -/
def encodeCache (c : Cache) : Jval :=
  .jobj (c.map (fun kv => (kv.1, encodeEntry kv.2)))

/-- Typed reading of the members of a manifest object. -/
def decodeEntries : List (String × Jval) → Option Cache
  | [] => some []
  | (k, jv) :: rest =>
    match decodeEntry jv, decodeEntries rest with
    | some e, some c => some ((k, e) :: c)
    | _, _ => none

/-- Typed reading of a whole persisted manifest. -/
def decodeCache : Jval → Option Cache
  | .jobj fields => decodeEntries fields
  | _ => none

/-- The working directory's files holding persisted manifests: one JSON
value per file name. -/
abbrev Store := List (String × Jval)

/-- The persisted file name `f'.mcsm_bak.{label}.json'`. -/
def cacheFileName (label : String) : String :=
  ".mcsm_bak." ++ label ++ ".json"

/-- `mcsm_bak.save_cache`: full rewrite of the label's manifest file. -/
def save_cache (store : Store) (label : String) (cache : Cache) : Store :=
  alistInsert store (cacheFileName label) (encodeCache cache)

/-- `mcsm_bak.load_cache`: `{}` when the file is absent, otherwise the
parsed contents (`none` models a `json.load`/shape failure). -/
def load_cache (store : Store) (label : String) : Option Cache :=
  match alistFind store (cacheFileName label) with
  | none => some []
  | some jv => decodeCache jv

/-! ### The uploader and updater threads (`uploader` / `updater`)

`uploader` forwards to the update queue exactly those of its files whose
`backup_file` call returned `True`; `updater` folds `update_cache` over
whatever arrives on the update queue, in arrival order.  The arrival
order is an arbitrary interleaving of the uploader outputs. -/

/-- The paths one `uploader` thread puts on the update queue, given the
files it popped from the file queue: those whose upload succeeded, in
order. -/
def uploader_out (upload : String → Bool) (files : List String) :
    List String :=
  files.filter upload

/-- `mcsm_bak.updater`: fold `update_cache` over the arriving paths,
catching the probe errors of a vanished file (cache left untouched). -/
def updater_run (fs : FS) (sha256 : List Nat → String)
    (stream : List String) (c : Cache) : Cache :=
  stream.foldl (fun acc p => (update_cache fs sha256 p acc).getD acc) c

/-- `Interleaving ls s`: the stream `s` is an order-preserving merge of
the per-thread output lists `ls` — the update queue's possible arrival
orders for the updater. -/
inductive Interleaving : List (List String) → List String → Prop where
  | nil (ls : List (List String)) : (∀ l ∈ ls, l = []) → Interleaving ls []
  | take (pre : List (List String)) (l : List String)
      (post : List (List String)) (a : String) (s : List String) :
      Interleaving (pre ++ l :: post) s →
      Interleaving (pre ++ (a :: l) :: post) (a :: s)

/-! ### Lifecycle of `backup_instance` (control flow)

`backup_instance` resolves the working directory (a failure returns at
once), runs `pre_backup` (a `False` returns at once), loads the cache (a
parse error propagates — there is no handler between `load_cache` and
the `try`), then joins the pipeline threads inside
`try/except (KeyboardInterrupt, SystemExit)/finally`, the `finally`
running `save_cache` then `post_backup` on both the normal and the
interrupted path. -/

/-- `mcsm_api.Status`. -/
inductive Status : Type where
  | busy | stopped | stopping | starting | running
deriving DecidableEq

/-- Observable actions of one `backup_instance` run. -/
inductive Ev : Type where
  | pipelineRunEv
  | stopSetEv
  | saveCacheEv
  | postBackupEv
  | enableAutoSaveEv
deriving DecidableEq

/-- How the `try: join()` block ends: all joins return, or a
`KeyboardInterrupt`/`SystemExit` lands during a join and the handler
sets the stop flag and joins again. -/
inductive PipelineOutcome : Type where
  | completed
  | interrupted
deriving DecidableEq

/-- `mcsm_bak.post_backup`: query the status (a raising query is caught:
no attempt); when the instance reports Running, attempt
`enable_auto_save` once (its own failure is caught and logged). -/
def post_backup (statusRes : Option Status) : List Ev :=
  Ev.postBackupEv ::
    match statusRes with
    | some .running => [Ev.enableAutoSaveEv]
    | _ => []

/-- `mcsm_bak.backup_instance` as the sequence of its observable
actions.  `cwdRes` is the `get_cwd` result (`none` = raised), `preOk`
the `pre_backup` verdict, `loadOk` whether `load_cache` parsed (`false`
= `json.load` raised, escaping before the `try`), `postStatusRes` the
post-hook's status query. -/
def backup_instance (cwdRes : Option String) (preOk : Bool)
    (loadOk : Bool) (outcome : PipelineOutcome)
    (postStatusRes : Option Status) : List Ev :=
  match cwdRes with
  | none => []
  | some _ =>
    if preOk = false then []
    else if loadOk = false then []
    else
      (match outcome with
       | .completed => [Ev.pipelineRunEv]
       | .interrupted => [Ev.pipelineRunEv, Ev.stopSetEv]) ++
      ([Ev.saveCacheEv] ++ post_backup postStatusRes)

/-! ### Thread-level model of the pipeline (cancellation behaviour)

An interleaving semantics of the `producer` / `uploader` / `updater`
threads of `mcsm_bak.py`, faithful to where each thread checks
`stop_event` and where it blocks:

* the producer checks the flag before every enqueue attempt of a pending
  file and `return`s on cancellation — skipping the sentinel pushes that
  follow the `for` loop; its sentinel `put(None)` calls and its file
  `put` calls need room in the bounded (100) file queue;
* an uploader checks the flag only at the top of its loop; once past the
  check it is committed to `file_queue.get()`, which is enabled only
  when the file queue is nonempty — a thread sitting at `get` on an
  empty queue has no transition;
* the updater never checks the flag; it pops the update queue (enabled
  only when nonempty), counting sentinels up to the uploader count.

A blocked call is a transition that is not enabled; quiescence of the
pipeline is every thread having reached its terminal program point. -/

/-- Program points of the producer thread.  `run fs` holds the files
still to enqueue (the walk's selected output); `sentinels k` is the
post-loop phase with `k` sentinel pushes left. -/
inductive ProdPC : Type where
  | run : List String → ProdPC
  | sentinels : Nat → ProdPC
  | pdone
deriving DecidableEq

/-- Program points of one uploader thread: about to check the stop flag,
committed to `file_queue.get()`, holding a popped item, or exited. -/
inductive UpPC : Type where
  | checkStop
  | doGet
  | handle : Option String → UpPC
  | updone
deriving DecidableEq

/-- Program points of the updater thread: waiting on the update queue
with a sentinel count, or exited. -/
inductive UpdPC : Type where
  | waiting : Nat → UpdPC
  | uddone
deriving DecidableEq

/-- A global configuration of one pipeline run: the shared stop flag,
the two queues (`none` is the sentinel), each thread's program point,
and the shared cache dict. -/
structure PipelineCfg : Type where
  stop : Bool
  fileQueue : List (Option String)
  updateQueue : List (Option String)
  prod : ProdPC
  ups : List UpPC
  upd : UpdPC
  cache : Cache

/-- One interleaved step of the pipeline, or the external stop signal.
`N` is `max_upload_threads`. -/
inductive Step (N : Nat) (upload : String → Bool) (fs : FS)
    (sha256 : List Nat → String) : PipelineCfg → PipelineCfg → Prop where
  | setStop (cfg : PipelineCfg) :
      cfg.stop = false →
      Step N upload fs sha256 cfg { cfg with stop := true }
  | prodStop (cfg : PipelineCfg) (f : String) (rest : List String) :
      cfg.prod = .run (f :: rest) → cfg.stop = true →
      Step N upload fs sha256 cfg { cfg with prod := .pdone }
  | prodPush (cfg : PipelineCfg) (f : String) (rest : List String) :
      cfg.prod = .run (f :: rest) → cfg.stop = false →
      cfg.fileQueue.length < 100 →
      Step N upload fs sha256 cfg
        { cfg with prod := .run rest,
                   fileQueue := cfg.fileQueue ++ [some f] }
  | prodFinish (cfg : PipelineCfg) :
      cfg.prod = .run [] →
      Step N upload fs sha256 cfg { cfg with prod := .sentinels N }
  | prodSentinel (cfg : PipelineCfg) (k : Nat) :
      cfg.prod = .sentinels (k + 1) → cfg.fileQueue.length < 100 →
      Step N upload fs sha256 cfg
        { cfg with prod := .sentinels k,
                   fileQueue := cfg.fileQueue ++ [none] }
  | prodExit (cfg : PipelineCfg) :
      cfg.prod = .sentinels 0 →
      Step N upload fs sha256 cfg { cfg with prod := .pdone }
  | upObserveStop (cfg : PipelineCfg) (i : Nat) :
      cfg.ups[i]? = some .checkStop → cfg.stop = true →
      Step N upload fs sha256 cfg
        { cfg with ups := cfg.ups.set i .updone,
                   updateQueue := cfg.updateQueue ++ [none] }
  | upProceed (cfg : PipelineCfg) (i : Nat) :
      cfg.ups[i]? = some .checkStop → cfg.stop = false →
      Step N upload fs sha256 cfg { cfg with ups := cfg.ups.set i .doGet }
  | upGet (cfg : PipelineCfg) (i : Nat) (item : Option String)
      (q : List (Option String)) :
      cfg.ups[i]? = some .doGet → cfg.fileQueue = item :: q →
      Step N upload fs sha256 cfg
        { cfg with ups := cfg.ups.set i (.handle item), fileQueue := q }
  | upSentinel (cfg : PipelineCfg) (i : Nat) :
      cfg.ups[i]? = some (.handle none) →
      Step N upload fs sha256 cfg
        { cfg with ups := cfg.ups.set i .updone,
                   updateQueue := cfg.updateQueue ++ [none] }
  | upUpload (cfg : PipelineCfg) (i : Nat) (f : String) :
      cfg.ups[i]? = some (.handle (some f)) →
      Step N upload fs sha256 cfg
        { cfg with ups := cfg.ups.set i .checkStop,
                   updateQueue :=
                     if upload f then cfg.updateQueue ++ [some f]
                     else cfg.updateQueue }
  | updSentinel (cfg : PipelineCfg) (c : Nat) (q : List (Option String)) :
      cfg.upd = .waiting c → cfg.updateQueue = none :: q →
      Step N upload fs sha256 cfg
        { cfg with updateQueue := q,
                   upd := if c + 1 = N then .uddone else .waiting (c + 1) }
  | updRecord (cfg : PipelineCfg) (c : Nat) (f : String)
      (q : List (Option String)) :
      cfg.upd = .waiting c → cfg.updateQueue = some f :: q →
      Step N upload fs sha256 cfg
        { cfg with updateQueue := q,
                   cache := (update_cache fs sha256 f cfg.cache).getD cfg.cache }

/-- A trivial upload capability for concrete scenarios: every upload
succeeds. -/
def demoUpload : String → Bool := fun _ => true

/-- A trivial filesystem for concrete scenarios: every path stats as
(mtime 0, size 0) and reads as empty. -/
def demoFS : FS := ⟨fun _ => some (0, 0), fun _ => some []⟩

/-- A trivial digest function for concrete scenarios. -/
def demoSha : List Nat → String := fun _ => "d"

/-- Start of the deadlock scenario: one uploader, two changed files, no
prior cache, nothing stopped yet. -/
def deadlockStart : PipelineCfg :=
  { stop := false, fileQueue := [], updateQueue := [],
    prod := .run ["a", "b"], ups := [.checkStop], upd := .waiting 0,
    cache := [] }

/-- The configuration the deadlock scenario reaches: the stop flag is
set and the producer has exited without sentinels, while the uploader is
committed to `get` on the empty file queue and the updater still waits
for its sentinel. -/
def deadlockEnd : PipelineCfg :=
  { stop := true, fileQueue := [], updateQueue := [],
    prod := .pdone, ups := [.doGet], upd := .waiting 0,
    cache := [("a", ⟨0, 0, "d"⟩)] }

/-- A demo filesystem whose files stat as (mtime 5, size 10) but cannot
be opened for reading (permission denied on `open`). -/
def demoFSNoRead : FS := ⟨fun _ => some (5, 10), fun _ => none⟩

/-- The cache holds, under key `k`, exactly the identity a fresh probe
of the unchanged filesystem would produce.  This is the state
`update_cache` leaves behind at `k`. -/
def freshAt (fs : FS) (sha256 : List Nat → String) (k : String)
    (c : Cache) : Prop :=
  ∃ ms content, fs.stat k = some ms ∧ fs.read k = some content ∧
    alistFind c k = some ⟨ms.1, ms.2, sha256 content⟩

/-! ## Helper lemmas -/

theorem alistFind_insert {α : Type} (c : List (String × α))
    (key key' : String) (v : α) :
    alistFind (alistInsert c key v) key' =
      if key' = key then some v else alistFind c key' := by
  induction c with
  | nil =>
    by_cases h : key' = key
    · simp [alistInsert, alistFind, h]
    · simp [alistInsert, alistFind, h]
      exact fun hh => h hh.symm
  | cons kv rest ih =>
    obtain ⟨k, w⟩ := kv
    by_cases hk : k = key
    · subst hk
      by_cases hk' : key' = k
      · simp [alistInsert, alistFind, hk']
      · simp only [alistInsert, alistFind, if_pos rfl, if_neg hk',
          if_neg (fun hh : k = key' => hk' hh.symm)]
    · by_cases hk' : key' = key
      · subst hk'
        simp [alistInsert, alistFind, hk, ih, fun hh : k = key' => hk hh]
      · simp [alistInsert, alistFind, hk, hk', ih]

theorem should_backup_congr (fs : FS) (sha256 : List Nat → String)
    (p : String) (c₁ c₂ : Cache)
    (h : alistFind c₁ (normalize p) = alistFind c₂ (normalize p)) :
    should_backup fs sha256 p c₁ = should_backup fs sha256 p c₂ := by
  simp only [should_backup]
  rw [h]

theorem update_cache_some (fs : FS) (sha256 : List Nat → String)
    (p : String) (c c' : Cache)
    (h : update_cache fs sha256 p c = some c') :
    ∃ ms content, fs.stat (normalize p) = some ms ∧
      fs.read (normalize p) = some content ∧
      c' = alistInsert c (normalize p) ⟨ms.1, ms.2, sha256 content⟩ := by
  simp only [update_cache] at h
  cases hstat : fs.stat (normalize p) <;>
    cases hread : fs.read (normalize p) <;>
      simp [hstat, hread] at h
  exact ⟨_, _, rfl, rfl, h.symm⟩

theorem update_cache_none (fs : FS) (sha256 : List Nat → String)
    (p : String) (c : Cache)
    (h : update_cache fs sha256 p c = none) :
    fs.stat (normalize p) = none ∨ fs.read (normalize p) = none := by
  simp only [update_cache] at h
  cases hstat : fs.stat (normalize p) <;>
    cases hread : fs.read (normalize p) <;>
      simp [hstat, hread] at h <;> simp

/-! ## C1 -/

/-- C1: `should_backup` returns `true` for a path absent from the cache;
`false` when the present entry's (mtime, size) match the current probe;
on metadata drift it compares the current digest with the cached one,
returning `false` on equality and `true` otherwise; and a failed
metadata or content probe (a raised `FileNotFoundError` /
`PermissionError`) yields `false` (skip) instead of propagating. -/
theorem should_backup_spec (fs : FS) (sha256 : List Nat → String)
    (p : String) (c : Cache) :
    (alistFind c (normalize p) = none → should_backup fs sha256 p c = true) ∧
    (∀ e ms, alistFind c (normalize p) = some e →
      fs.stat (normalize p) = some ms → e.mtime = ms.1 → e.size = ms.2 →
      should_backup fs sha256 p c = false) ∧
    (∀ e ms content, alistFind c (normalize p) = some e →
      fs.stat (normalize p) = some ms → ¬(e.mtime = ms.1 ∧ e.size = ms.2) →
      fs.read (normalize p) = some content →
      should_backup fs sha256 p c =
        (if e.sha256 = sha256 content then false else true)) ∧
    (∀ e, alistFind c (normalize p) = some e →
      fs.stat (normalize p) = none → should_backup fs sha256 p c = false) ∧
    (∀ e ms, alistFind c (normalize p) = some e →
      fs.stat (normalize p) = some ms → ¬(e.mtime = ms.1 ∧ e.size = ms.2) →
      fs.read (normalize p) = none → should_backup fs sha256 p c = false) := by
  refine ⟨?_, ?_, ?_, ?_, ?_⟩
  · intro h
    simp only [should_backup]
    rw [h]
  · intro e ms hfind hstat h1 h2
    simp only [should_backup]
    rw [hfind, hstat]
    simp [h1, h2]
  · intro e ms content hfind hstat hne hread
    simp only [should_backup]
    rw [hfind, hstat]
    simp only [if_neg hne]
    rw [hread]
  · intro e hfind hstat
    simp only [should_backup]
    rw [hfind, hstat]
  · intro e ms hfind hstat hne hread
    simp only [should_backup]
    rw [hfind, hstat]
    simp only [if_neg hne]
    rw [hread]

/-- Witness for C1 at concrete inputs: a never-recorded file is selected;
a recorded file with matching metadata is skipped even though its cached
digest is stale. -/
theorem should_backup_spec_witness :
    should_backup demoFSNoRead demoSha "a" [] = true ∧
    should_backup demoFS demoSha "b" [("b", ⟨0, 0, "zzz"⟩)] = false := by
  constructor
  · exact (should_backup_spec demoFSNoRead demoSha "a" []).1 rfl
  · exact (should_backup_spec demoFS demoSha "b" [("b", ⟨0, 0, "zzz"⟩)]).2.1
      ⟨0, 0, "zzz"⟩ (0, 0) rfl rfl rfl rfl

/-! ## C5 -/

/-- C5: a cached path whose current (mtime, size) equal the cached
values is skipped without computing the digest: the instrumented
decision is `(false, false)` (no digest computation), the result is the
same for any file content and any digest function (the `read` channel is
never consulted), and the cached digest value is never consulted (any
cached digest yields the same skip). -/
theorem metadata_match_skips_digest (fs : FS) (sha256 : List Nat → String)
    (p : String) (c : Cache) (e : CacheEntry)
    (hfind : alistFind c (normalize p) = some e)
    (hstat : fs.stat (normalize p) = some (e.mtime, e.size)) :
    should_backup fs sha256 p c = false ∧
    should_backup_probe fs sha256 p c = (false, false) ∧
    (∀ read2 sha2, should_backup ⟨fs.stat, read2⟩ sha2 p c = false) ∧
    (∀ d, should_backup fs sha256 p
        (alistInsert c (normalize p) ⟨e.mtime, e.size, d⟩) = false) := by
  refine ⟨?_, ?_, ?_, ?_⟩
  · simp only [should_backup]
    rw [hfind, hstat]
    simp
  · simp only [should_backup_probe]
    rw [hfind, hstat]
    simp
  · intro read2 sha2
    simp only [should_backup]
    rw [hfind]
    show (match fs.stat (normalize p) with
      | none => false
      | some ms =>
        if e.mtime = ms.1 ∧ e.size = ms.2 then false
        else
          match read2 (normalize p) with
          | none => false
          | some content =>
            if e.sha256 = sha2 content then false else true) = false
    rw [hstat]
    simp
  · intro d
    simp only [should_backup]
    rw [alistFind_insert, if_pos rfl, hstat]
    simp

/-- Witness for C5: a recorded file whose metadata match is skipped with
no digest computation, even though the cached digest is stale. -/
theorem metadata_match_skips_digest_witness :
    should_backup demoFS demoSha "a" [("a", ⟨0, 0, "stale"⟩)] = false ∧
    should_backup_probe demoFS demoSha "a" [("a", ⟨0, 0, "stale"⟩)] =
      (false, false) := by
  have h := metadata_match_skips_digest demoFS demoSha "a"
    [("a", ⟨0, 0, "stale"⟩)] ⟨0, 0, "stale"⟩ rfl rfl
  exact ⟨h.1, h.2.1⟩

/-! ## C6 -/

theorem decodeEntry_encodeEntry (e : CacheEntry) :
    decodeEntry (encodeEntry e) = some e := by
  simp [encodeEntry, decodeEntry]

theorem decodeEntries_encode (c : Cache) :
    decodeEntries (c.map (fun kv => (kv.1, encodeEntry kv.2))) = some c := by
  induction c with
  | nil => simp [decodeEntries]
  | cons kv rest ih =>
    simp [decodeEntries, decodeEntry_encodeEntry, ih]

/-- C6: persisting a manifest cache with `save_cache` and reading it
back with `load_cache` in the same working directory returns a mapping
equal to the original. -/
theorem save_load_roundtrip (store : Store) (label : String) (m : Cache) :
    load_cache (save_cache store label m) label = some m := by
  simp only [load_cache, save_cache]
  rw [alistFind_insert, if_pos rfl]
  simp [decodeCache, encodeCache, decodeEntries_encode]

/-! ## C4 -/

/-- C4 counterexample: a run whose working directory resolved and whose
pre-hook succeeded, but whose `load_cache` raised (corrupt persisted
manifest — `json.load` errors propagate, there is no handler between
`load_cache` and the `try`): `save_cache` and the post-hook are never
invoked, although the claim's precondition ("working directory resolved
and pre-hook succeeded") holds. -/
theorem save_skipped_on_corrupt_cache_load :
    (backup_instance (some "/srv/mc") true false PipelineOutcome.completed
        (some Status.running)).count Ev.saveCacheEv = 0 ∧
    (backup_instance (some "/srv/mc") true false PipelineOutcome.completed
        (some Status.running)).count Ev.postBackupEv = 0 := by
  decide

/-- C4 (amended: the run must also survive `load_cache`): once the
working directory is resolved, the pre-hook has succeeded and the
manifest cache loaded, `save_cache` runs exactly once and `post_backup`
runs exactly once on every exit path of the pipeline (normal completion
or interruption/cancellation), and the post-hook attempts exactly one
`enable_auto_save` precisely when the instance reports Running. -/
theorem finalization_exactly_once (w : String) (outcome : PipelineOutcome)
    (postStatusRes : Option Status) :
    (backup_instance (some w) true true outcome postStatusRes).count
        Ev.saveCacheEv = 1 ∧
    (backup_instance (some w) true true outcome postStatusRes).count
        Ev.postBackupEv = 1 ∧
    (backup_instance (some w) true true outcome postStatusRes).count
        Ev.enableAutoSaveEv =
      (if postStatusRes = some Status.running then 1 else 0) := by
  have hw : backup_instance (some w) true true outcome postStatusRes =
      backup_instance (some "") true true outcome postStatusRes := rfl
  rw [hw]
  cases outcome <;> rcases postStatusRes with _ | st
  · decide
  · cases st <;> decide
  · decide
  · cases st <;> decide

/-! ## C10 -/

theorem splitSlash_cons_eq (c : Char) (rest g0 : List Char)
    (gs : List (List Char)) (hsp : splitSlash rest = g0 :: gs) :
    splitSlash (c :: rest) =
      if c = '/' then [] :: g0 :: gs else (c :: g0) :: gs := by
  simp only [splitSlash, hsp]

theorem splitSlash_ne_nil (l : List Char) : splitSlash l ≠ [] := by
  cases l with
  | nil => simp [splitSlash]
  | cons c rest =>
    cases hsp : splitSlash rest with
    | nil => simp [splitSlash, hsp]
    | cons g gs =>
      rw [splitSlash_cons_eq c rest g gs hsp]
      split <;> simp

theorem splitSlash_no_slash (l : List Char) :
    ∀ g ∈ splitSlash l, '/' ∉ g := by
  induction l with
  | nil =>
    intro g hg
    simp [splitSlash] at hg
    simp [hg]
  | cons c rest ih =>
    intro g hg
    cases hsp : splitSlash rest with
    | nil => exact absurd hsp (splitSlash_ne_nil rest)
    | cons g0 gs =>
      rw [splitSlash_cons_eq c rest g0 gs hsp] at hg
      by_cases hc : c = '/'
      · rw [if_pos hc] at hg
        rcases List.mem_cons.mp hg with h | h
        · simp [h]
        · exact ih g (by rw [hsp]; exact h)
      · rw [if_neg hc] at hg
        rcases List.mem_cons.mp hg with h | h
        · subst h
          intro hmem
          rcases List.mem_cons.mp hmem with h' | h'
          · exact hc h'.symm
          · exact ih g0 (by rw [hsp]; exact List.mem_cons_self g0 gs) h'
        · exact ih g (by rw [hsp]; exact List.mem_cons_of_mem g0 h)

theorem splitSlash_single (g : List Char) (h : '/' ∉ g) :
    splitSlash g = [g] := by
  induction g with
  | nil => simp [splitSlash]
  | cons c g' ih =>
    have hc : c ≠ '/' := fun hc => h (hc ▸ List.mem_cons_self c g')
    have hg' : '/' ∉ g' := fun hm => h (List.mem_cons_of_mem c hm)
    rw [splitSlash_cons_eq c g' g' [] (ih hg'), if_neg hc]

theorem splitSlash_append (g t : List Char) (h : '/' ∉ g) :
    splitSlash (g ++ '/' :: t) = g :: splitSlash t := by
  induction g with
  | nil =>
    cases hsp : splitSlash t with
    | nil => exact absurd hsp (splitSlash_ne_nil t)
    | cons g0 gs =>
      rw [List.nil_append, splitSlash_cons_eq '/' t g0 gs hsp, if_pos rfl]
  | cons c g' ih =>
    have hc : c ≠ '/' := fun hc => h (hc ▸ List.mem_cons_self c g')
    have hg' : '/' ∉ g' := fun hm => h (List.mem_cons_of_mem c hm)
    rw [List.cons_append,
      splitSlash_cons_eq c (g' ++ '/' :: t) g' (splitSlash t) (ih hg'),
      if_neg hc]

theorem splitSlash_joinSlash (gs : List (List Char)) (h1 : gs ≠ [])
    (h2 : ∀ g ∈ gs, '/' ∉ g) : splitSlash (joinSlash gs) = gs := by
  induction gs with
  | nil => exact absurd rfl h1
  | cons g rest ih =>
    cases rest with
    | nil =>
      simp only [joinSlash]
      exact splitSlash_single g (h2 g (List.mem_cons_self g []))
    | cons g' rest' =>
      have hjoin : joinSlash (g :: g' :: rest') =
          g ++ '/' :: joinSlash (g' :: rest') := rfl
      rw [hjoin, splitSlash_append g _ (h2 g (List.mem_cons_self g _)),
        ih (by simp) (fun x hx => h2 x (List.mem_cons_of_mem g hx))]

theorem normalize_idem (p : String) :
    normalize (normalize p) = normalize p := by
  by_cases h : (splitSlash p.data).filter keepComp = []
  · have hp : normalize p = "." := by simp [normalize, h]
    rw [hp]
    rfl
  · have hp : normalize p =
        String.mk (joinSlash ((splitSlash p.data).filter keepComp)) := by
      simp [normalize, h]
    rw [hp]
    have hmem : ∀ g ∈ (splitSlash p.data).filter keepComp, '/' ∉ g :=
      fun g hg => splitSlash_no_slash p.data g (List.mem_of_mem_filter hg)
    have hrt : splitSlash (joinSlash ((splitSlash p.data).filter keepComp)) =
        (splitSlash p.data).filter keepComp :=
      splitSlash_joinSlash _ h hmem
    have hdata : (String.mk (joinSlash ((splitSlash p.data).filter keepComp))).data =
        joinSlash ((splitSlash p.data).filter keepComp) := rfl
    simp only [normalize, hdata, hrt, List.filter_filter, Bool.and_self]
    rw [if_neg h]

/-- C10: `normalize` is idempotent (in the program it is only ever
applied to relative paths; on those the model is exact, and the model
is idempotent on all strings), and `should_backup` and `update_cache`
address the cache under the key `normalize p`: an identity recorded by
`update_cache` for a path is found, under the same key, by every later
`should_backup` lookup of that path (or of any path with the same
normalized form), and with an unchanged filesystem that lookup reports
the file unchanged. -/
theorem normalize_idempotent_key_agreement (fs : FS)
    (sha256 : List Nat → String) (p q : String) (c c' : Cache)
    (hupd : update_cache fs sha256 p c = some c')
    (hq : normalize q = normalize p) :
    normalize (normalize p) = normalize p ∧
    (∃ ms content, fs.stat (normalize p) = some ms ∧
      fs.read (normalize p) = some content ∧
      alistFind c' (normalize q) = some ⟨ms.1, ms.2, sha256 content⟩) ∧
    should_backup fs sha256 q c' = false := by
  obtain ⟨ms, content, hstat, hread, hc'⟩ :=
    update_cache_some fs sha256 p c c' hupd
  have hfind : alistFind c' (normalize q) =
      some ⟨ms.1, ms.2, sha256 content⟩ := by
    rw [hc', hq, alistFind_insert, if_pos rfl]
  refine ⟨normalize_idem p, ⟨ms, content, hstat, hread, hfind⟩, ?_⟩
  simp only [should_backup]
  rw [hfind, hq, hstat]
  simp

/-- Witness for C10: recording `./a` then looking up `a` finds the
recorded identity and reports the file unchanged. -/
theorem normalize_idempotent_key_agreement_witness :
    normalize (normalize "./a") = normalize "./a" ∧
    should_backup demoFS demoSha "a"
      [("a", ⟨0, 0, demoSha []⟩)] = false := by
  have h := normalize_idempotent_key_agreement demoFS demoSha "./a" "a"
    [] [("a", ⟨0, 0, demoSha []⟩)] rfl rfl
  exact ⟨h.1, h.2.2⟩

/-! ## C8 -/

theorem walk_files_not_excluded (excl : List (String → Bool))
    (pre : String) (es : List (String × Option FSTree)) :
    ∀ p ∈ walk_files excl pre es, is_excluded excl p = false := by
  induction pre, es using walk_files.induct excl with
  | case1 pre => simp [walk_files.eq_def]
  | case2 pre name info rest ih2 ih1 =>
    intro p hp
    rw [walk_files.eq_def] at hp
    simp only [List.mem_append] at hp
    rcases hp with hp | hp
    · cases info with
      | none =>
        have hp' : p ∈ ([] : List String) := hp
        simp at hp'
      | some t =>
        have hp' : p ∈ (if is_excluded excl (joinPath pre name) = true then []
            else match t with
              | FSTree.file => [joinPath pre name]
              | FSTree.dir es =>
                  walk_files excl (joinPath pre name) (sortEntries es)) := hp
        by_cases hx : is_excluded excl (joinPath pre name) = true
        · rw [if_pos hx] at hp'
          simp at hp'
        · rw [if_neg hx] at hp'
          cases t with
          | file =>
            simp at hp'
            subst hp'
            simpa using hx
          | dir es2 => exact ih2 p hp'
    · exact ih1 p hp

theorem isCacheFileName_of_label (label : String) (h1 : label.data ≠ [])
    (h2 : '\x0a' ∉ label.data) :
    isCacheFileName (cacheFileName label) = true := by
  have hdata : (cacheFileName label).data =
      cacheNameHead ++ (label.data ++ cacheNameTail) := by
    simp [cacheFileName, cacheNameHead, cacheNameTail, String.data_append]
  have hlen : cacheNameHead.length = 10 := by decide
  have htlen : cacheNameTail.length = 5 := by decide
  have hlast : (cacheFileName label).data.getLast? = some 'n' := by
    rw [hdata]
    have h3 : cacheNameTail.getLast? = some 'n' := by decide
    have h4 : (label.data ++ cacheNameTail).getLast? = some 'n' := by
      rw [List.getLast?_append, h3]
      rfl
    rw [List.getLast?_append, h4]
    rfl
  simp only [isCacheFileName]
  rw [hlast, if_neg (by decide : ¬ (some 'n' = some '\x0a'))]
  simp only [Bool.and_eq_true]
  refine ⟨⟨⟨?_, ?_⟩, ?_⟩, ?_⟩
  · rw [hdata]
    simp only [List.isPrefixOf_iff_prefix]
    exact List.prefix_append _ _
  · rw [hdata]
    simp only [List.isSuffixOf_iff_suffix]
    rw [← List.append_assoc]
    exact List.suffix_append _ _
  · rw [hdata]
    simp only [decide_eq_true_eq, List.length_append, hlen, htlen]
    have := List.length_pos.mpr h1
    omega
  · rw [hdata, hlen, htlen]
    rw [List.drop_left' hlen]
    have harith : (cacheNameHead ++ (label.data ++ cacheNameTail)).length
        - 10 - 5 = label.data.length := by
      simp [List.length_append, hlen, htlen]
    rw [harith]
    have htake : (label.data ++ cacheNameTail).take label.data.length =
        label.data := List.take_left _ _
    rw [htake]
    simp only [List.all_eq_true, decide_eq_true_eq]
    exact fun c hc he => h2 (he ▸ hc)

/-- C8: an excluded path (one matching a configured pattern or the
built-in manifest-cache pattern) is never yielded by the walker and
never enqueued by the producer, and the built-in pattern matches every
persisted manifest file name `.mcsm_bak.<label>.json` (for an actual
label: nonempty and newline-free). -/
theorem excluded_never_uploaded (excl : List (String → Bool)) (fs : FS)
    (sha256 : List Nat → String) (cache : Cache)
    (root : List (String × Option FSTree)) (p : String) (label : String)
    (hx : is_excluded excl p = true) (h1 : label.data ≠ [])
    (h2 : '\x0a' ∉ label.data) :
    p ∉ walk_files_root excl root ∧
    p ∉ producer_files excl fs sha256 cache root ∧
    is_excluded excl (cacheFileName label) = true := by
  have hwalk : p ∉ walk_files_root excl root := by
    intro hmem
    have := walk_files_not_excluded excl "" (sortEntries root) p hmem
    rw [hx] at this
    exact Bool.true_eq_false.mp this
  refine ⟨hwalk, ?_, ?_⟩
  · intro hmem
    exact hwalk (List.mem_of_mem_filter hmem)
  · simp only [is_excluded, isCacheFileName_of_label label h1 h2]
    rfl

/-- Witness for C8: the daily manifest file is matched by the built-in
pattern, and is neither walked nor enqueued even when present in the
tree with a changed content. -/
theorem excluded_never_uploaded_witness :
    is_excluded [] ".mcsm_bak.daily.json" = true ∧
    ".mcsm_bak.daily.json" ∉
      walk_files_root [] [(".mcsm_bak.daily.json", some FSTree.file)] ∧
    is_excluded [] (cacheFileName "daily") = true := by
  have h := excluded_never_uploaded [] demoFS demoSha []
    [(".mcsm_bak.daily.json", some FSTree.file)] ".mcsm_bak.daily.json"
    "daily" (by decide) (by decide) (by decide)
  exact ⟨by decide, h.1, h.2.2⟩

/-! ## C2 and C3: lemmas about `runBackup` -/

theorem processFile_find_ne (fs : FS) (sha256 : List Nat → String)
    (up : String → Bool) (q : String) (c : Cache) (k : String)
    (hne : normalize q ≠ k) :
    alistFind (processFile fs sha256 up q c) k = alistFind c k := by
  unfold processFile
  split
  · cases hupd : update_cache fs sha256 q c with
    | none => simp [hupd]
    | some c' =>
      obtain ⟨ms, content, _, _, hc'⟩ :=
        update_cache_some fs sha256 q c c' hupd
      simp only [hupd, Option.getD_some]
      rw [hc', alistFind_insert, if_neg (fun h => hne h.symm)]
  · rfl

theorem runBackup_find_frame (fs : FS) (sha256 : List Nat → String)
    (up : String → Bool) (paths : List String) (c : Cache) (k : String)
    (h : ∀ q ∈ paths, normalize q ≠ k) :
    alistFind (runBackup fs sha256 up paths c).1 k = alistFind c k := by
  induction paths generalizing c with
  | nil => rfl
  | cons q rest ih =>
    simp only [runBackup]
    split
    · rw [ih (processFile fs sha256 up q c)
        (fun x hx => h x (List.mem_cons_of_mem q hx))]
      exact processFile_find_ne fs sha256 up q c k
        (h q (List.mem_cons_self q rest))
    · exact ih c (fun x hx => h x (List.mem_cons_of_mem q hx))

theorem should_backup_of_freshAt (fs : FS) (sha256 : List Nat → String)
    (p : String) (c : Cache) (h : freshAt fs sha256 (normalize p) c) :
    should_backup fs sha256 p c = false := by
  obtain ⟨ms, content, hstat, hread, hfind⟩ := h
  simp only [should_backup]
  rw [hfind, hstat]
  simp

theorem runBackup_find_cases (fs : FS) (sha256 : List Nat → String)
    (up : String → Bool) (paths : List String) (c : Cache) (k : String) :
    alistFind (runBackup fs sha256 up paths c).1 k = alistFind c k ∨
      freshAt fs sha256 k (runBackup fs sha256 up paths c).1 := by
  induction paths generalizing c with
  | nil => left; rfl
  | cons q rest ih =>
    simp only [runBackup]
    split
    · show alistFind
          (runBackup fs sha256 up rest (processFile fs sha256 up q c)).1 k =
            alistFind c k ∨
        freshAt fs sha256 k
          (runBackup fs sha256 up rest (processFile fs sha256 up q c)).1
      by_cases hup : up q = true
      · cases hupd : update_cache fs sha256 q c with
        | none =>
          have hpc : processFile fs sha256 up q c = c := by
            simp [processFile, hup, hupd]
          rw [hpc]
          exact ih c
        | some c' =>
          obtain ⟨ms, content, hstat, hread, hc'⟩ :=
            update_cache_some fs sha256 q c c' hupd
          have hpc : processFile fs sha256 up q c = c' := by
            simp [processFile, hup, hupd]
          rw [hpc]
          rcases ih c' with h | h
          · by_cases hk : normalize q = k
            · right
              refine ⟨ms, content, hk ▸ hstat, hk ▸ hread, ?_⟩
              rw [h, hc', alistFind_insert, if_pos hk.symm]
            · left
              rw [h, hc', alistFind_insert,
                if_neg (fun hh => hk hh.symm)]
          · right
            exact h
      · have hpc : processFile fs sha256 up q c = c := by
          simp [processFile, hup]
        rw [hpc]
        exact ih c
    · exact ih c

/-- C2 counterexample (the claim as stated): every attempted upload of
the first run succeeds, the filesystem never changes, yet the second run
uploads again.  The file `a` is new (so it is selected without any
probe), its stat succeeds but its content cannot be read (permission
denied on `open`), the external transport nevertheless reports success;
`update_cache` then raises, the updater drops the entry, and the second
run selects `a` again. -/
theorem second_run_not_always_empty :
    (∀ p ∈ (runBackup demoFSNoRead demoSha demoUpload ["a"] []).2,
      demoUpload p = true) ∧
    ¬ (∀ p ∈ ["a"], should_backup demoFSNoRead demoSha p
        (runBackup demoFSNoRead demoSha demoUpload ["a"] []).1 = false) := by
  constructor
  · intro p _
    rfl
  · intro h
    have := h "a" (List.mem_cons_self "a" [])
    rw [show should_backup demoFSNoRead demoSha "a"
        (runBackup demoFSNoRead demoSha demoUpload ["a"] []).1 = true
      from rfl] at this
    exact Bool.true_eq_false.mp this

/-- C2 (amended: the probes of every uploaded path must also still
succeed when its cache entry is recorded — implicit in a transport that
actually read and stored the bytes): after a run in which every
attempted upload succeeded and every attempted path could be probed, a
second run over the same enumeration with an unchanged filesystem
selects nothing: `should_backup` is `false` for every enumerated path
against the cache the first run produced. -/
theorem second_run_uploads_nothing (fs : FS) (sha256 : List Nat → String)
    (up : String → Bool) (paths : List String) (c : Cache)
    (hup : ∀ p ∈ (runBackup fs sha256 up paths c).2, up p = true)
    (hprobe : ∀ p ∈ (runBackup fs sha256 up paths c).2,
      (fs.stat (normalize p)).isSome ∧ (fs.read (normalize p)).isSome) :
    ∀ p ∈ paths,
      should_backup fs sha256 p (runBackup fs sha256 up paths c).1 = false := by
  induction paths generalizing c with
  | nil => simp
  | cons q rest ih =>
    by_cases hsel : should_backup fs sha256 q c = true
    · have hrun1 : (runBackup fs sha256 up (q :: rest) c).1 =
          (runBackup fs sha256 up rest (processFile fs sha256 up q c)).1 := by
        simp [runBackup, hsel]
      have hrun2 : (runBackup fs sha256 up (q :: rest) c).2 =
          q :: (runBackup fs sha256 up rest (processFile fs sha256 up q c)).2 := by
        simp [runBackup, hsel]
      have hmemq : q ∈ (runBackup fs sha256 up (q :: rest) c).2 := by
        rw [hrun2]
        exact List.mem_cons_self _ _
      have hupq : up q = true := hup q hmemq
      obtain ⟨hstat', hread'⟩ := hprobe q hmemq
      obtain ⟨ms, hstat⟩ := Option.isSome_iff_exists.mp hstat'
      obtain ⟨content, hread⟩ := Option.isSome_iff_exists.mp hread'
      have hc' : processFile fs sha256 up q c =
          alistInsert c (normalize q) ⟨ms.1, ms.2, sha256 content⟩ := by
        simp [processFile, hupq, update_cache, hstat, hread]
      have hfresh : freshAt fs sha256 (normalize q)
          (processFile fs sha256 up q c) :=
        ⟨ms, content, hstat, hread, by rw [hc', alistFind_insert, if_pos rfl]⟩
      intro p hp
      rcases List.mem_cons.mp hp with hpq | hpr
      · subst hpq
        rw [hrun1]
        rcases runBackup_find_cases fs sha256 up rest
            (processFile fs sha256 up p c) (normalize p) with h | h
        · apply should_backup_of_freshAt
          obtain ⟨m2, c2, hs2, hr2, hf2⟩ := hfresh
          exact ⟨m2, c2, hs2, hr2, by rw [h]; exact hf2⟩
        · exact should_backup_of_freshAt fs sha256 p _ h
      · rw [hrun1]
        refine ih (processFile fs sha256 up q c) ?_ ?_ p hpr
        · intro x hx
          exact hup x (by rw [hrun2]; exact List.mem_cons_of_mem q hx)
        · intro x hx
          exact hprobe x (by rw [hrun2]; exact List.mem_cons_of_mem q hx)
    · have hselF : should_backup fs sha256 q c = false := by
        simpa using hsel
      have hrun : runBackup fs sha256 up (q :: rest) c =
          runBackup fs sha256 up rest c := by
        simp [runBackup, hselF]
      intro p hp
      rcases List.mem_cons.mp hp with hpq | hpr
      · subst hpq
        rw [hrun]
        rcases runBackup_find_cases fs sha256 up rest c (normalize p)
            with h | h
        · rw [should_backup_congr fs sha256 p _ c h]
          exact hselF
        · exact should_backup_of_freshAt fs sha256 p _ h
      · rw [hrun]
        refine ih c ?_ ?_ p hpr
        · intro x hx
          exact hup x (by rw [hrun]; exact hx)
        · intro x hx
          exact hprobe x (by rw [hrun]; exact hx)

/-- Witness for C2 (amended): one new readable file, uploaded by an
always-succeeding transport; the second run selects nothing. -/
theorem second_run_uploads_nothing_witness :
    should_backup demoFS demoSha "a"
      (runBackup demoFS demoSha demoUpload ["a"] []).1 = false := by
  have h := second_run_uploads_nothing demoFS demoSha demoUpload ["a"] []
    (fun p _ => rfl) (fun p _ => ⟨rfl, rfl⟩)
  exact h "a" (List.mem_cons_self "a" [])

theorem runBackup_frame_key (fs : FS) (sha256 : List Nat → String)
    (up : String → Bool) (paths : List String) (c : Cache) (p : String)
    (huniq : ∀ q ∈ paths, normalize q = normalize p → q = p)
    (hfail : up p = false) :
    alistFind (runBackup fs sha256 up paths c).1 (normalize p) =
      alistFind c (normalize p) := by
  induction paths generalizing c with
  | nil => rfl
  | cons q rest ih =>
    have huniq' : ∀ x ∈ rest, normalize x = normalize p → x = p :=
      fun x hx => huniq x (List.mem_cons_of_mem q hx)
    by_cases hq : q = p
    · subst hq
      by_cases hsel : should_backup fs sha256 q c = true
      · have : processFile fs sha256 up q c = c := by
          simp [processFile, hfail]
        simp only [runBackup, if_pos hsel, this]
        exact ih c huniq'
      · simp only [runBackup, if_neg hsel]
        exact ih c huniq'
    · have hnq : normalize q ≠ normalize p :=
        fun h => hq (huniq q (List.mem_cons_self q rest) h)
      by_cases hsel : should_backup fs sha256 q c = true
      · simp only [runBackup, if_pos hsel]
        rw [ih (processFile fs sha256 up q c) huniq']
        exact processFile_find_ne fs sha256 up q c (normalize p) hnq
      · simp only [runBackup, if_neg hsel]
        exact ih c huniq'

/-- C3: a path whose upload fails is never forwarded by the uploader to
the update queue, its manifest entry (or absence) at the end of the run
is exactly what it was at the start, and the next run selects it again. -/
theorem failed_upload_leaves_cache (fs : FS) (sha256 : List Nat → String)
    (up : String → Bool) (paths : List String) (c : Cache) (p : String)
    (huniq : ∀ q ∈ paths, normalize q = normalize p → q = p)
    (hfail : up p = false)
    (hsel : should_backup fs sha256 p c = true) :
    alistFind (runBackup fs sha256 up paths c).1 (normalize p) =
      alistFind c (normalize p) ∧
    should_backup fs sha256 p (runBackup fs sha256 up paths c).1 = true ∧
    (∀ files : List String, p ∉ uploader_out up files) := by
  have hframe := runBackup_frame_key fs sha256 up paths c p huniq hfail
  refine ⟨hframe, ?_, ?_⟩
  · rw [should_backup_congr fs sha256 p _ c hframe]
    exact hsel
  · intro files hmem
    have := List.of_mem_filter (p := up) hmem
    rw [hfail] at this
    exact Bool.false_ne_true this

/-- Witness for C3: the upload of `c.bin` fails; the cache still lacks
the entry afterwards and the path is selected again. -/
theorem failed_upload_leaves_cache_witness :
    alistFind (runBackup demoFS demoSha (fun _ => false) ["c.bin"] []).1
        (normalize "c.bin") = none ∧
    should_backup demoFS demoSha "c.bin"
      (runBackup demoFS demoSha (fun _ => false) ["c.bin"] []).1 = true := by
  have h := failed_upload_leaves_cache demoFS demoSha (fun _ => false)
    ["c.bin"] [] "c.bin" (fun q _ _ => by
      rcases List.mem_cons.mp (by assumption) with h1 | h1
      · exact h1
      · exact absurd h1 (List.not_mem_nil q)) rfl rfl
  exact ⟨h.1, h.2.1⟩

/-! ## C7 -/

theorem Interleaving.mem_source {ls : List (List String)} {s : List String}
    (h : Interleaving ls s) : ∀ a ∈ s, ∃ l ∈ ls, a ∈ l := by
  induction h with
  | nil ls h =>
    intro a ha
    simp at ha
  | take pre l post x s hmerge ih =>
    intro b hb
    rcases List.mem_cons.mp hb with hb | hb
    · refine ⟨x :: l, by simp, ?_⟩
      rw [hb]
      exact List.mem_cons_self x l
    · obtain ⟨l', hl', hbl'⟩ := ih b hb
      rcases List.mem_append.mp hl' with h' | h'
      · exact ⟨l', List.mem_append.mpr (Or.inl h'), hbl'⟩
      · rcases List.mem_cons.mp h' with h'' | h''
        · refine ⟨x :: l, by simp, ?_⟩
          rw [h''] at hbl'
          exact List.mem_cons_of_mem x hbl'
        · exact ⟨l', by simp [h''], hbl'⟩

theorem updater_run_diff (fs : FS) (sha256 : List Nat → String)
    (stream : List String) (c : Cache) (k : String)
    (h : alistFind (updater_run fs sha256 stream c) k ≠ alistFind c k) :
    ∃ p ∈ stream, normalize p = k := by
  induction stream generalizing c with
  | nil => exact absurd rfl h
  | cons q rest ih =>
    by_cases hk : normalize q = k
    · exact ⟨q, List.mem_cons_self q rest, hk⟩
    · have hstep : alistFind ((update_cache fs sha256 q c).getD c) k =
          alistFind c k := by
        cases hupd : update_cache fs sha256 q c with
        | none => simp [hupd]
        | some c' =>
          obtain ⟨ms, content, _, _, hc'⟩ :=
            update_cache_some fs sha256 q c c' hupd
          simp only [Option.getD_some]
          rw [hc', alistFind_insert, if_neg (fun hh => hk hh.symm)]
      rw [show updater_run fs sha256 (q :: rest) c =
          updater_run fs sha256 rest ((update_cache fs sha256 q c).getD c)
        from rfl, ← hstep] at h
      obtain ⟨p, hp, hpk⟩ := ih _ h
      exact ⟨p, List.mem_cons_of_mem q hp, hpk⟩

/-- C7: in every reachable updater state (after any prefix `t` of any
possible arrival order of the update queue — an arbitrary interleaving
of the uploaders' outputs), a cache key whose binding changed belongs to
a path that some uploader forwarded, and an uploader only forwards a
path after its upload call returned success.  The quantification over
all interleavings is exactly the absence of any cross-file ordering
guarantee. -/
theorem cache_write_requires_upload_success (fs : FS)
    (sha256 : List Nat → String) (upload : String → Bool)
    (fls : List (List String)) (s t r : List String) (c : Cache)
    (k : String)
    (hmerge : Interleaving (fls.map (uploader_out upload)) s)
    (hsplit : s = t ++ r)
    (hdiff : alistFind (updater_run fs sha256 t c) k ≠ alistFind c k) :
    ∃ p, p ∈ t ∧ upload p = true ∧ normalize p = k := by
  obtain ⟨p, hpt, hpk⟩ := updater_run_diff fs sha256 t c k hdiff
  have hps : p ∈ s := hsplit ▸ List.mem_append.mpr (Or.inl hpt)
  obtain ⟨l, hl, hpl⟩ := hmerge.mem_source p hps
  obtain ⟨files, _, hfl⟩ := List.mem_map.mp hl
  have hup : upload p = true := by
    rw [← hfl] at hpl
    exact (List.mem_filter.mp hpl).2
  exact ⟨p, hpt, hup, hpk⟩

/-- Witness for C7: two uploaders, one of which uploaded `a`
successfully; after the updater consumed `a` the changed binding traces
back to that successful upload. -/
theorem cache_write_requires_upload_success_witness :
    ∃ p, p ∈ ["a"] ∧ demoUpload p = true ∧ normalize p = "a" := by
  have hnil : Interleaving [([] : List String), []] [] :=
    Interleaving.nil _ (by simp)
  have hstep := Interleaving.take [] [] [[]] "a" [] hnil
  have hmap : ([["a"], []].map (uploader_out demoUpload)) = [["a"], []] :=
    rfl
  exact cache_write_requires_upload_success demoFS demoSha demoUpload
    [["a"], []] ["a"] ["a"] [] [] "a" (by rw [hmap]; exact hstep) rfl
    (by decide)

/-! ## C9 -/

/-- C9 (the claim fails on the code; the quiescence it states is clearly
the design intent — the interrupt handler sets the flag and then joins
every thread, expecting them to exit): a reachable, stuck configuration
of the pipeline.  Run with one uploader on two changed files; the
uploader uploads `a`, passes its stop check and commits to
`file_queue.get()` on the now-empty queue; the stop signal arrives; the
producer observes it and returns without pushing its sentinels; the
updater (which never checks the flag) consumed `a` and waits for a
sentinel that will never come.  The stop flag is set, yet no transition
is enabled: the uploader is blocked forever in `get` (it observes
nothing), the updater is blocked forever on the update queue, and the
pipeline never reaches quiescence. -/
theorem cancellation_deadlock :
    Relation.ReflTransGen (Step 1 demoUpload demoFS demoSha)
      deadlockStart deadlockEnd ∧
    (∀ cfg', ¬ Step 1 demoUpload demoFS demoSha deadlockEnd cfg') ∧
    deadlockEnd.stop = true ∧
    deadlockEnd.ups = [UpPC.doGet] ∧
    deadlockEnd.upd = UpdPC.waiting 0 := by
  refine ⟨?_, ?_, rfl, rfl, rfl⟩
  · refine Relation.ReflTransGen.head
      (Step.prodPush _ "a" ["b"] rfl rfl (by decide)) ?_
    refine Relation.ReflTransGen.head (Step.upProceed _ 0 rfl rfl) ?_
    refine Relation.ReflTransGen.head
      (Step.upGet _ 0 (some "a") [] rfl rfl) ?_
    refine Relation.ReflTransGen.head (Step.upUpload _ 0 "a" rfl) ?_
    refine Relation.ReflTransGen.head (Step.upProceed _ 0 rfl rfl) ?_
    refine Relation.ReflTransGen.head (Step.updRecord _ 0 "a" [] rfl rfl) ?_
    refine Relation.ReflTransGen.head (Step.setStop _ rfl) ?_
    refine Relation.ReflTransGen.head (Step.prodStop _ "b" [] rfl rfl) ?_
    exact Relation.ReflTransGen.refl
  · intro cfg' h
    cases h with
    | setStop h1 => simp [deadlockEnd] at h1
    | prodStop f rest h1 h2 => simp [deadlockEnd] at h1
    | prodPush f rest h1 h2 h3 => simp [deadlockEnd] at h1
    | prodFinish h1 => simp [deadlockEnd] at h1
    | prodSentinel k h1 h2 => simp [deadlockEnd] at h1
    | prodExit h1 => simp [deadlockEnd] at h1
    | upObserveStop i h1 h2 =>
      have hm := List.getElem?_mem h1
      simp [deadlockEnd] at hm
    | upProceed i h1 h2 =>
      have hm := List.getElem?_mem h1
      simp [deadlockEnd] at hm
    | upGet i item q h1 h2 => simp [deadlockEnd] at h2
    | upSentinel i h1 =>
      have hm := List.getElem?_mem h1
      simp [deadlockEnd] at hm
    | upUpload i f h1 =>
      have hm := List.getElem?_mem h1
      simp [deadlockEnd] at hm
    | updSentinel cnt q h1 h2 => simp [deadlockEnd] at h2
    | updRecord cnt f q h1 h2 => simp [deadlockEnd] at h2

end Mcsm
